import Mathlib

/-!
Verification of the bulk-document layer of a search-engine client
(`Documents.ts`): the JSONL record codec used by `import`, the
partitioning of per-record import results, and the thin write/export
entry points (`create`, `upsert`, `update`, `createMany`, `import`,
`export`).

The document payloads are structured JSON records.  We embed them as a
mini-JSON value type.  Numeric payloads are modelled as integers: the
host language's floating-point number formatting is out of scope, and
none of the verified properties depend on non-integer numerics.
Likewise `\uXXXX` escapes denoting surrogate halves are rejected by the
embedded parser (the embedding's strings are sequences of Unicode
scalar values).
-/

mutual

/-- A JSON value, as produced by `JSON.parse` and consumed by
`JSON.stringify` in the source.  Arrays and objects use their own list
types so that all recursion is mutual-structural. -/
inductive Json where
  | null : Json
  | bool (b : Bool) : Json
  | num (n : Int) : Json
  | str (s : String) : Json
  | arr (elems : JsonArr) : Json
  | obj (fields : JsonObj) : Json

inductive JsonArr where
  | nil : JsonArr
  | cons (hd : Json) (tl : JsonArr) : JsonArr

inductive JsonObj where
  | nil : JsonObj
  | cons (key : String) (val : Json) (tl : JsonObj) : JsonObj

end

/-- Hexadecimal digit characters, lowercase, as emitted by
`JSON.stringify` for `\u00XX` escapes. -/
def hexDigitChar (n : Nat) : Char :=
  if n < 10 then Char.ofNat (48 + n)
  else if n < 16 then Char.ofNat (87 + n)
  else '0'

/-- A two-character escape sequence. -/
def esc2 (e : Char) : List Char :=
  ['\\', e]

/-- The escape sequence `JSON.stringify` emits for one character of a
string: named escapes for the two metacharacters and the five named
control characters, `\u00XX` for the remaining control characters, and
the character itself otherwise. -/
def escChar (c : Char) : List Char :=
  if c = '"' ∨ c = '\\' then esc2 c
  else if c = '\n' then esc2 'n'
  else if c = '\t' then esc2 't'
  else if c = '\r' then esc2 'r'
  else if c = '\x08' then esc2 'b'
  else if c = '\x0c' then esc2 'f'
  else if c.toNat < 32 then
    esc2 'u' ++ '0' :: '0' :: hexDigitChar (c.toNat / 16) :: [hexDigitChar (c.toNat % 16)]
  else [c]

/-- The characters of a serialized JSON string literal, quotes included. -/
def escString (s : String) : List Char :=
  '"' :: ((s.data.map escChar).flatten ++ ['"'])

/-- Decimal digits with an explicit fuel bound (structural recursion so
that the definition evaluates inside the kernel; any fuel above the
value works, see `natDigitsF_congr`). -/
def natDigitsF : Nat → Nat → List Char
  | 0, _ => []
  | f + 1, m =>
    if m < 10 then [Char.ofNat (48 + m)]
    else natDigitsF f (m / 10) ++ [Char.ofNat (48 + m % 10)]

/-- Decimal digits of a natural number, most significant first. -/
def natDigits (m : Nat) : List Char :=
  natDigitsF (m + 1) m

/-- Decimal rendering of an integer, as `JSON.stringify` renders an
integral number. -/
def intChars (n : Int) : List Char :=
  if n < 0 then '-' :: natDigits (-n).toNat else natDigits n.toNat

mutual

/-- `JSON.stringify`, characterwise: a single-line rendering with no
whitespace, fields in insertion order. -/
def sChars : Json → List Char
  | .null => "null".data
  | .bool true => "true".data
  | .bool false => "false".data
  | .num n => intChars n
  | .str s => escString s
  | .arr xs => '[' :: (sArrBody xs ++ [']'])
  | .obj fs => '{' :: (sObjBody fs ++ ['}'])

/-- The comma-separated element renderings of an array. -/
def sArrBody : JsonArr → List Char
  | .nil => []
  | .cons v .nil => sChars v
  | .cons v (.cons w ws) => sChars v ++ ',' :: sArrBody (.cons w ws)

/-- The comma-separated `"key":value` renderings of an object. -/
def sObjBody : JsonObj → List Char
  | .nil => []
  | .cons k v .nil => escString k ++ ':' :: sChars v
  | .cons k v (.cons k2 v2 fs) =>
    escString k ++ ':' :: sChars v ++ ',' :: sObjBody (.cons k2 v2 fs)

end

/-- `JSON.stringify(document)` from the source's
`documents.map((document) => JSON.stringify(document))`. -/
def stringify (v : Json) : String :=
  String.mk (sChars v)

/-- `parts.join(sep)` for a one-character separator, characterwise:
the JavaScript `Array.prototype.join` used by the source with
separator `'\n'`. -/
def joinChars : List (List Char) → List Char
  | [] => []
  | l :: ls =>
    match ls with
    | [] => l
    | _ :: _ => l ++ '\n' :: joinChars ls

/-- The JSONL encoding of a record sequence:
`documents.map((d) => JSON.stringify(d)).join('\n')`. -/
def encodeJSONL (rs : List Json) : String :=
  String.mk (joinChars (rs.map sChars))

/-- `text.split('\n')`, characterwise: splits at every newline, keeping
empty segments, and maps the empty text to one empty segment. -/
def splitNlChars : List Char → List (List Char)
  | [] => [[]]
  | c :: cs =>
    if c = '\n' then [] :: splitNlChars cs
    else
      match splitNlChars cs with
      | [] => [[c]]
      | l :: ls => (c :: l) :: ls

/-- `text.split('\n')` on strings. -/
def splitNl (s : String) : List String :=
  (splitNlChars s.data).map String.mk

/-- Errors surfaced by the modelled operations.  `error` is a plain
`new Error(message)`; `parseError` is the `SyntaxError` thrown by
`JSON.parse`, carrying the character offset (within the parsed text) at
which parsing failed; `typeError` is the `TypeError` thrown by a
property access on `null`.

Modelled from the spec: `importError` is the `ImportError` class of the
`Errors` module, which is not under the provided sources; per the spec's
`AggregateImportError`, it carries a human-readable summary and the
complete ordered per-record result sequence (`error.importResults`). -/
inductive JsError where
  | error (msg : String) : JsError
  | parseError (pos : Nat) : JsError
  | typeError (msg : String) : JsError
  | importError (msg : String) (importResults : List Json) : JsError

/-- Whitespace characters accepted between JSON tokens. -/
def isJsonWs (c : Char) : Prop :=
  c = ' ' ∨ c = '\n' ∨ c = '\t' ∨ c = '\r'

instance (c : Char) : Decidable (isJsonWs c) := by
  unfold isJsonWs; infer_instance

/-- Drop leading JSON whitespace. -/
def skipWs : List Char → List Char
  | [] => []
  | c :: cs => if isJsonWs c then skipWs cs else c :: cs

/-- Value of a hexadecimal digit character. -/
def hexVal (c : Char) : Option Nat :=
  if c.isDigit then some (c.toNat - 48)
  else if 'a' ≤ c ∧ c ≤ 'f' then some (c.toNat - 87)
  else if 'A' ≤ c ∧ c ≤ 'F' then some (c.toNat - 55)
  else none

/-- Parse the body of a JSON string literal (after the opening quote),
returning the decoded characters and the input after the closing quote.
An error carries the input remaining at the point of failure. -/
def pStringBody : List Char → Except (List Char) (List Char × List Char)
  | [] => .error []
  | c :: cs =>
    if c = '"' then .ok ([], cs)
    else if c = '\\' then
      match cs with
      | [] => .error []
      | e :: cs2 =>
        if e = '"' then (pStringBody cs2).map (fun p => ('"' :: p.1, p.2))
        else if e = '\\' then (pStringBody cs2).map (fun p => ('\\' :: p.1, p.2))
        else if e = '/' then (pStringBody cs2).map (fun p => ('/' :: p.1, p.2))
        else if e = 'b' then (pStringBody cs2).map (fun p => ('\x08' :: p.1, p.2))
        else if e = 'f' then (pStringBody cs2).map (fun p => ('\x0c' :: p.1, p.2))
        else if e = 'n' then (pStringBody cs2).map (fun p => ('\n' :: p.1, p.2))
        else if e = 'r' then (pStringBody cs2).map (fun p => ('\r' :: p.1, p.2))
        else if e = 't' then (pStringBody cs2).map (fun p => ('\t' :: p.1, p.2))
        else if e = 'u' then
          match cs2 with
          | h1 :: h2 :: h3 :: h4 :: cs3 =>
            match hexVal h1, hexVal h2, hexVal h3, hexVal h4 with
            | some a, some b, some c2, some d =>
              let v := ((a * 16 + b) * 16 + c2) * 16 + d
              if v < 55296 ∨ 57343 < v then
                (pStringBody cs3).map (fun p => (Char.ofNat v :: p.1, p.2))
              else .error cs2
            | _, _, _, _ => .error cs2
          | _ => .error cs2
        else .error (e :: cs2)
    else if c.toNat < 32 then .error (c :: cs)
    else (pStringBody cs).map (fun p => (c :: p.1, p.2))

/-- Consume a run of decimal digits, extending an accumulator. -/
def pDigits : List Char → Nat → Nat × List Char
  | [], acc => (acc, [])
  | c :: cs, acc =>
    if c.isDigit then pDigits cs (acc * 10 + (c.toNat - 48)) else (acc, c :: cs)

/-- Parse a JSON natural-number literal: `0` not followed by a digit, or
a nonzero leading digit followed by digits. -/
def pNat : List Char → Except (List Char) (Nat × List Char)
  | [] => .error []
  | c :: cs =>
    if c = '0' then
      match cs with
      | c2 :: _ => if c2.isDigit then .error (c :: cs) else .ok (0, cs)
      | [] => .ok (0, [])
    else if c.isDigit then .ok (pDigits (c :: cs) 0)
    else .error (c :: cs)

/-- Parse a JSON integer literal (optional minus sign). -/
def pNumber (cs : List Char) : Except (List Char) (Json × List Char) :=
  match cs with
  | [] => .error []
  | c :: cs1 =>
    if c = '-' then (pNat cs1).map (fun p => (Json.num (-(p.1 : Int)), p.2))
    else (pNat (c :: cs1)).map (fun p => (Json.num ((p.1 : Int)), p.2))

/-- Expect a fixed sequence of characters. -/
def expectChars : List Char → List Char → Except (List Char) (List Char)
  | [], cs => .ok cs
  | _ :: _, [] => .error []
  | e :: es, c :: cs => if c = e then expectChars es cs else .error (c :: cs)

mutual

/-- Recursive-descent JSON value parser with an explicit fuel bound
(one unit per nesting step; the callers supply `input.length + 1`,
which always suffices). -/
def pVal : Nat → List Char → Except (List Char) (Json × List Char)
  | 0, cs => .error cs
  | n + 1, cs0 =>
    match skipWs cs0 with
    | [] => .error []
    | c :: cs =>
      if c = 'n' then (expectChars ['u', 'l', 'l'] cs).map (fun r => (Json.null, r))
      else if c = 't' then (expectChars ['r', 'u', 'e'] cs).map (fun r => (Json.bool true, r))
      else if c = 'f' then (expectChars ['a', 'l', 's', 'e'] cs).map (fun r => (Json.bool false, r))
      else if c = '"' then (pStringBody cs).map (fun p => (Json.str (String.mk p.1), p.2))
      else if c = '[' then
        match skipWs cs with
        | [] => .error []
        | c2 :: cs2 =>
          if c2 = ']' then .ok (Json.arr .nil, cs2)
          else (pElems n (c2 :: cs2)).map (fun p => (Json.arr p.1, p.2))
      else if c = '{' then
        match skipWs cs with
        | [] => .error []
        | c2 :: cs2 =>
          if c2 = '}' then .ok (Json.obj .nil, cs2)
          else (pMembers n (c2 :: cs2)).map (fun p => (Json.obj p.1, p.2))
      else pNumber (c :: cs)

def pElems : Nat → List Char → Except (List Char) (JsonArr × List Char)
  | 0, cs => .error cs
  | n + 1, cs =>
    match pVal n cs with
    | .error e => .error e
    | .ok (v, cs1) =>
      match skipWs cs1 with
      | [] => .error []
      | c :: cs2 =>
        if c = ',' then (pElems n cs2).map (fun p => (JsonArr.cons v p.1, p.2))
        else if c = ']' then .ok (JsonArr.cons v .nil, cs2)
        else .error (c :: cs2)

def pMembers : Nat → List Char → Except (List Char) (JsonObj × List Char)
  | 0, cs => .error cs
  | n + 1, cs =>
    match skipWs cs with
    | [] => .error []
    | c :: cs1 =>
      if c = '"' then
        match pStringBody cs1 with
        | .error e => .error e
        | .ok (k, cs2) =>
          match skipWs cs2 with
          | [] => .error []
          | c2 :: cs3 =>
            if c2 = ':' then
              match pVal n cs3 with
              | .error e => .error e
              | .ok (v, cs4) =>
                match skipWs cs4 with
                | [] => .error []
                | c3 :: cs5 =>
                  if c3 = ',' then
                    (pMembers n cs5).map (fun p => (JsonObj.cons (String.mk k) v p.1, p.2))
                  else if c3 = '}' then .ok (JsonObj.cons (String.mk k) v .nil, cs5)
                  else .error (c3 :: cs5)
            else .error (c2 :: cs3)
      else .error (c :: cs1)

end

/-- The input following a rendered number does not begin with a digit
(so greedy digit consumption stops exactly at the number's end). -/
def numSafe : List Char → Prop
  | [] => True
  | c :: _ => c.isDigit = false

/-- `JSON.parse(line)`: parse one JSON value, requiring the whole input
(modulo surrounding whitespace) to be consumed.  A failure is a
`SyntaxError` carrying the offset of the unexpected input. -/
def jsonParse (line : String) : Except JsError Json :=
  match pVal (line.data.length + 1) line.data with
  | .ok (v, rest) =>
    match skipWs rest with
    | [] => .ok v
    | r => .error (.parseError (line.data.length - r.length))
  | .error rem => .error (.parseError (line.data.length - rem.length))

/-- `lines.map((r) => JSON.parse(r))`: decode each line independently;
the first malformed line aborts the whole traversal with its error. -/
def mapParse : List String → Except JsError (List Json)
  | [] => .ok []
  | l :: ls =>
    match jsonParse l with
    | .error e => .error e
    | .ok v =>
      match mapParse ls with
      | .error e => .error e
      | .ok vs => .ok (v :: vs)

/-- The decode half of the bulk record codec:
`text.split('\n').map((r) => JSON.parse(r))`. -/
def decodeJSONL (s : String) : Except JsError (List Json) :=
  mapParse (splitNl s)

/-- Write-time options (`DocumentWriteParameters`). -/
structure WriteParams where
  dirty_values : Option String := none
  action : Option String := none
deriving DecidableEq

/-- Export options (`DocumentsExportParameters`). -/
structure ExportParams where
  filter_by : Option String := none
  include_fields : Option String := none
  exclude_fields : Option String := none
deriving DecidableEq

/-- Query parameters attached to a request. -/
inductive QueryParams where
  | write (p : WriteParams) : QueryParams
  | exportQ (p : ExportParams) : QueryParams
deriving DecidableEq

/-- The body payload of a request. -/
inductive RequestBody where
  | document (d : Json) : RequestBody
  | jsonl (s : String) : RequestBody
  | empty : RequestBody

/-- Modelled from the spec: the collaborator-facing request descriptor of
`performRequest(method, path, {queryParameters, bodyPayload, headers})`
(the `ApiCall` module is not under the provided sources; the spec fixes
its interface as method, path, query parameters, body and extra
headers). -/
structure ApiRequest where
  method : String
  path : String
  query : QueryParams
  body : RequestBody
  headers : List (String × String)

/-- Modelled from the spec: the resource path built by the base class's
`endpointPath` helper (not under the provided sources); resource
wrappers build a collection-scoped documents path with an optional
trailing operation segment. -/
def docsPath (collection : String) (op : Option String) : String :=
  "/collections/" ++ collection ++ "/documents" ++
    (match op with
     | none => ""
     | some o => "/" ++ o)

/-- The request issued by `import`: a post of the JSONL body with the
write options as query parameters and a `text/plain` content type. -/
def importRequest (collection : String) (opts : WriteParams) (body : String) : ApiRequest :=
  { method := "post"
    path := docsPath collection (some "import")
    query := .write opts
    body := .jsonl body
    headers := [("Content-Type", "text/plain")] }

/-- The request issued by `create`, `upsert` and `update`: a post of one
document with the (possibly adjusted) write options. -/
def writeDocRequest (collection : String) (opts : WriteParams) (d : Json) : ApiRequest :=
  { method := "post"
    path := docsPath collection none
    query := .write opts
    body := .document d
    headers := [] }

/-- The request issued by `export`: a get with the export options. -/
def exportRequest (collection : String) (opts : ExportParams) : ApiRequest :=
  { method := "get"
    path := docsPath collection (some "export")
    query := .exportQ opts
    body := .empty
    headers := [] }

/-- The outcome of one operation: its result (or thrown error), the
requests it issued in order, and the warnings it logged. -/
structure OpResult (α : Type) where
  result : Except JsError α
  requests : List ApiRequest
  warnings : List String
deriving Nonempty

/-- JavaScript truthiness of the `document` argument (`!document`):
absent (`undefined`), `null`, `false`, `0` and the empty string are
falsy. -/
def jsFalsy : Option Json → Bool
  | none => true
  | some .null => true
  | some (.bool false) => true
  | some (.num 0) => true
  | some (.str "") => true
  | _ => false

/-- Property lookup on an object's field list; a later binding of the
same key wins, as in a JavaScript object literal with duplicate keys. -/
def objLookup : JsonObj → String → Option Json
  | .nil, _ => none
  | .cons k v fs, key =>
    match objLookup fs key with
    | some r => some r
    | none => if k = key then some v else none

/-- JavaScript property access `r[key]`: an object yields its field (or
`undefined`, modelled as `none`); `null` throws a `TypeError`; every
other value has no such property and yields `undefined`. -/
def jsGetField : Json → String → Except JsError (Option Json)
  | .null, key => .error (.typeError ("Cannot read properties of null (reading " ++ key ++ ")"))
  | .obj fs, key => .ok (objLookup fs key)
  | _, _ => .ok none

/-- The import partition predicate `(r) => r.success === false`:
`true` exactly when the `success` property exists and is the boolean
`false`; throws when `r` is `null`. -/
def successIsFalse (r : Json) : Except JsError Bool :=
  match jsGetField r "success" with
  | .error e => .error e
  | .ok o =>
    match o with
    | some (.bool false) => .ok true
    | _ => .ok false

/-- The pure discriminator: the `success` field is present and is the
boolean `false`. -/
def hasSuccessFalse : Json → Bool
  | .obj fs =>
    match objLookup fs "success" with
    | some (.bool false) => true
    | _ => false
  | _ => false

/-- The `success` property of a result, when the result is an object
carrying one. -/
def successField : Json → Option Json
  | .obj fs => objLookup fs "success"
  | _ => none

/-- A decoded result classified as failed. -/
def isFailure (r : Json) : Prop :=
  successIsFalse r = .ok true

/-- `results.filter((r) => r.success === false)`: evaluates the
predicate on each element in order, propagating the first thrown
error. -/
def filterFailedE : List Json → Except JsError (List Json)
  | [] => .ok []
  | r :: rs =>
    match successIsFalse r with
    | .error e => .error e
    | .ok b =>
      match filterFailedE rs with
      | .error e => .error e
      | .ok rest => .ok (if b then r :: rest else rest)

/-- The summary message of the aggregate import error, with the success
and failure counts interpolated as in the source's template string. -/
def importSummary (k m : Nat) : String :=
  Nat.repr k ++ " documents imported successfully, " ++ Nat.repr m ++
    " documents failed during import. Use \x60error.importResults\x60 from the raised exception to get a detailed error reason for each document."

/-- The deprecation warning logged by `createMany`. -/
def deprecationWarning : String :=
  "createMany is deprecated and will be removed in a future version. Use import instead, which now takes both an array of documents or a JSONL string of documents"

/-- The `import` argument: an array of records, or already-encoded
JSONL text (the source distinguishes the two with `Array.isArray`). -/
inductive ImportInput where
  | docs (ds : List Json) : ImportInput
  | raw (s : String) : ImportInput

/-- `Documents.create`: guard against a falsy document, then post it
with the caller's options unchanged. -/
def createOp (server : ApiRequest → String) (collection : String)
    (document : Option Json) (options : WriteParams) : OpResult String :=
  if jsFalsy document then ⟨.error (.error "No document provided"), [], []⟩
  else
    let req := writeDocRequest collection options (document.getD .null)
    ⟨.ok (server req), [req], []⟩

/-- `Object.assign({}, options, { action })`: a fresh options object
copying the caller's fields and then overriding `action`; the caller's
`options` value itself is left untouched because the assignment target
is a fresh empty object. -/
def assignAction (o : WriteParams) (a : String) : WriteParams :=
  { dirty_values := o.dirty_values, action := some a }

/-- `Documents.upsert`: guard, then post with `action` forced to
`upsert`. -/
def upsertOp (server : ApiRequest → String) (collection : String)
    (document : Option Json) (options : WriteParams) : OpResult String :=
  if jsFalsy document then ⟨.error (.error "No document provided"), [], []⟩
  else
    let req := writeDocRequest collection (assignAction options "upsert") (document.getD .null)
    ⟨.ok (server req), [req], []⟩

/-- `Documents.update`: guard, then post with `action` forced to
`update`. -/
def updateOp (server : ApiRequest → String) (collection : String)
    (document : Option Json) (options : WriteParams) : OpResult String :=
  if jsFalsy document then ⟨.error (.error "No document provided"), [], []⟩
  else
    let req := writeDocRequest collection (assignAction options "update") (document.getD .null)
    ⟨.ok (server req), [req], []⟩

/-- `Documents.import`: encode an array input to JSONL (or pass raw text
through), post once, and — in the array mode only — decode the response
linewise, filter the failures, and either throw the aggregate import
error or return the full decoded result sequence. -/
def importOp (server : ApiRequest → String) (collection : String)
    (input : ImportInput) (options : WriteParams) : OpResult (List Json ⊕ String) :=
  let body : String :=
    match input with
    | .docs ds => encodeJSONL ds
    | .raw s => s
  let req := importRequest collection options body
  let resp := server req
  match input with
  | .raw _ => ⟨.ok (.inr resp), [req], []⟩
  | .docs _ =>
    match decodeJSONL resp with
    | .error e => ⟨.error e, [req], []⟩
    | .ok results =>
      match filterFailedE results with
      | .error e => ⟨.error e, [req], []⟩
      | .ok failed =>
        if 0 < failed.length then
          ⟨.error (.importError
              (importSummary (results.length - failed.length) failed.length) results),
            [req], []⟩
        else ⟨.ok (.inl results), [req], []⟩

/-- `Documents.createMany`: log the deprecation warning, then delegate
to `import` with the same arguments. -/
def createManyOp (server : ApiRequest → String) (collection : String)
    (documents : List Json) (options : WriteParams) : OpResult (List Json ⊕ String) :=
  let r := importOp server collection (.docs documents) options
  { r with warnings := deprecationWarning :: r.warnings }

/-- `Documents.export`: one get request, whose response body is returned
as-is. -/
def exportOp (server : ApiRequest → String) (collection : String)
    (options : ExportParams) : OpResult String :=
  let req := exportRequest collection options
  ⟨.ok (server req), [req], []⟩

/-! Character and digit facts. -/

theorem hexVal_hexDigitChar : ∀ n, n < 16 → hexVal (hexDigitChar n) = some n := by decide

theorem digitChar_isDigit : ∀ k, k < 10 → (Char.ofNat (48 + k)).isDigit = true := by decide

theorem digitChar_ne_zero : ∀ k, k < 10 → 1 ≤ k → Char.ofNat (48 + k) ≠ '0' := by decide

theorem digitChar_val : ∀ k, k < 10 → (Char.ofNat (48 + k)).toNat - 48 = k := by decide

theorem digit_ne_of {c : Char} (h : c.isDigit = true) {d : Char} (hd : d.isDigit = false) :
    c ≠ d := by
  intro he
  subst he
  rw [h] at hd
  cases hd

theorem charOfNat_toNat (c : Char) : Char.ofNat c.toNat = c := by
  have h : Nat.isValidChar c.toNat := c.valid
  apply Char.eq_of_val_eq
  apply UInt32.eq_of_toBitVec_eq
  rw [Char.ofNat, dif_pos h]
  apply BitVec.eq_of_toNat_eq
  simp [Char.ofNatAux]
  rfl

/-! Decimal rendering facts. -/

theorem natDigitsF_congr (m : Nat) : ∀ f g, m < f → m < g → natDigitsF f m = natDigitsF g m := by
  induction m using Nat.strong_induction_on with
  | _ m ih =>
    intro f g hf hg
    match f, g with
    | f + 1, g + 1 =>
      by_cases hm : m < 10
      · simp [natDigitsF, hm]
      · simp only [natDigitsF, if_neg hm]
        rw [ih (m / 10) (by omega) f g (by omega) (by omega)]

theorem natDigits_eq (m : Nat) :
    natDigits m =
      if m < 10 then [Char.ofNat (48 + m)]
      else natDigits (m / 10) ++ [Char.ofNat (48 + m % 10)] := by
  by_cases hm : m < 10
  · simp [natDigits, natDigitsF, hm]
  · rw [if_neg hm]
    have h1 : natDigits m = natDigitsF m (m / 10) ++ [Char.ofNat (48 + m % 10)] := by
      simp [natDigits, natDigitsF, hm]
    rw [h1, natDigitsF_congr (m / 10) m (m / 10 + 1) (by omega) (by omega)]
    rfl

theorem natDigits_spec (m : Nat) :
    ∃ c cs, natDigits m = c :: cs ∧ c.isDigit = true ∧ (1 ≤ m → c ≠ '0') ∧
      ∀ d ∈ c :: cs, d.isDigit = true := by
  induction m using Nat.strong_induction_on with
  | _ m ih =>
    by_cases hm : m < 10
    · refine ⟨Char.ofNat (48 + m), [], by rw [natDigits_eq, if_pos hm], digitChar_isDigit m hm,
        fun h1 => digitChar_ne_zero m hm h1, ?_⟩
      intro d hd
      rw [List.mem_singleton] at hd
      subst hd
      exact digitChar_isDigit m hm
    · obtain ⟨c, cs, heq, hdig, hz, hall⟩ := ih (m / 10) (by omega)
      refine ⟨c, cs ++ [Char.ofNat (48 + m % 10)], ?_, hdig, fun _ => hz (by omega), ?_⟩
      · rw [natDigits_eq, if_neg hm, heq]
        simp
      · intro d hd
        rcases List.mem_cons.mp hd with h | h
        · subst h; exact hdig
        · rcases List.mem_append.mp h with h2 | h2
          · exact hall d (List.mem_cons_of_mem c h2)
          · rw [List.mem_singleton] at h2
            subst h2
            exact digitChar_isDigit (m % 10) (Nat.mod_lt _ (by omega))

theorem pDigits_append (m : Nat) :
    ∀ acc rest, pDigits (natDigits m ++ rest) acc =
      pDigits rest (acc * 10 ^ (natDigits m).length + m) := by
  induction m using Nat.strong_induction_on with
  | _ m ih =>
    intro acc rest
    by_cases hm : m < 10
    · rw [natDigits_eq, if_pos hm]
      simp only [List.singleton_append, List.length_singleton, pow_one, pDigits,
        digitChar_isDigit m hm, if_true, List.nil_append]
      rw [digitChar_val m hm]
      rfl
    · rw [natDigits_eq, if_neg hm, List.append_assoc, List.singleton_append,
        ih (m / 10) (by omega)]
      have hd : (Char.ofNat (48 + m % 10)).isDigit = true :=
        digitChar_isDigit (m % 10) (Nat.mod_lt _ (by omega))
      simp only [pDigits, hd, if_true]
      rw [digitChar_val (m % 10) (Nat.mod_lt _ (by omega))]
      congr 1
      rw [List.length_append, List.length_singleton, pow_add, pow_one, ← Nat.mul_assoc]
      generalize acc * (10 : Nat) ^ (natDigits (m / 10)).length = Y
      omega

theorem pDigits_stop (m : Nat) (rest : List Char) (h : numSafe rest) :
    pDigits rest m = (m, rest) := by
  match rest with
  | [] => rfl
  | c :: cs =>
    have hc : c.isDigit = false := h
    simp [pDigits, hc]

theorem pNat_natDigits (m : Nat) (rest : List Char) (h : numSafe rest) :
    pNat (natDigits m ++ rest) = .ok (m, rest) := by
  obtain ⟨c, cs, heq, hdig, hz, hall⟩ := natDigits_spec m
  by_cases hm : m = 0
  · subst hm
    have h0 : natDigits 0 = ['0'] := by rw [natDigits_eq]; rfl
    rw [h0, List.singleton_append]
    match rest with
    | [] => rfl
    | c2 :: cs2 =>
      have hc2 : c2.isDigit = false := h
      simp [pNat, hc2]
  · rw [heq, List.cons_append]
    have hcz : c ≠ '0' := hz (by omega)
    simp only [pNat, if_neg hcz, if_pos hdig]
    rw [← List.cons_append, ← heq, pDigits_append, Nat.zero_mul, Nat.zero_add,
      pDigits_stop m rest h]

theorem pNumber_intChars (n : Int) (rest : List Char) (h : numSafe rest) :
    pNumber (intChars n ++ rest) = .ok (Json.num n, rest) := by
  by_cases hn : n < 0
  · rw [intChars, if_pos hn, List.cons_append, pNumber, if_pos rfl,
      pNat_natDigits _ _ h]
    have : (((-n).toNat : Int)) = -n := Int.toNat_of_nonneg (by omega)
    simp [Except.map, this]
  · rw [intChars, if_neg hn]
    obtain ⟨c, cs, heq, hdig, _, _⟩ := natDigits_spec n.toNat
    have hcm : c ≠ '-' := digit_ne_of hdig (by decide)
    rw [heq, List.cons_append, pNumber, if_neg hcm, ← List.cons_append, ← heq,
      pNat_natDigits _ _ h]
    have : ((n.toNat : Int)) = n := Int.toNat_of_nonneg (by omega)
    simp [Except.map, this]

/-! Whitespace, literal and string-body parsing facts. -/

theorem skipWs_cons (c : Char) (cs : List Char) (h : ¬ isJsonWs c) :
    skipWs (c :: cs) = c :: cs := by
  simp [skipWs, h]

theorem expectChars_append (lit rest : List Char) :
    expectChars lit (lit ++ rest) = .ok rest := by
  induction lit with
  | nil => rfl
  | cons e es ih => simp [expectChars, ih]

theorem hexVal_zero : hexVal '0' = some 0 := by decide

theorem pStringBody_esc (l : List Char) :
    ∀ rest, pStringBody ((l.map escChar).flatten ++ ('"' :: rest)) = .ok (l, rest) := by
  induction l with
  | nil =>
    intro rest
    rw [List.map_nil, List.flatten_nil, List.nil_append, pStringBody.eq_def]
    simp only [Char.reduceEq, reduceIte]
  | cons c l ih =>
    intro rest
    rw [List.map_cons, List.flatten_cons, List.append_assoc]
    by_cases h1 : c = '"' ∨ c = '\\'
    · rcases h1 with h | h
      · subst h
        rw [show escChar '"' = ['\\', '"'] from rfl]
        simp only [List.cons_append, List.nil_append]
        rw [pStringBody.eq_def]
        simp only [Char.reduceEq, reduceIte, reduceCtorEq, ih rest, Except.map]
      · subst h
        rw [show escChar '\\' = ['\\', '\\'] from rfl]
        simp only [List.cons_append, List.nil_append]
        rw [pStringBody.eq_def]
        simp only [Char.reduceEq, reduceIte, reduceCtorEq, ih rest, Except.map]
    · by_cases h2 : c = '\n'
      · subst h2
        rw [show escChar '\n' = ['\\', 'n'] from rfl]
        simp only [List.cons_append, List.nil_append]
        rw [pStringBody.eq_def]
        simp only [Char.reduceEq, reduceIte, reduceCtorEq, ih rest, Except.map]
      · by_cases h3 : c = '\t'
        · subst h3
          rw [show escChar '\t' = ['\\', 't'] from rfl]
          simp only [List.cons_append, List.nil_append]
          rw [pStringBody.eq_def]
          simp only [Char.reduceEq, reduceIte, reduceCtorEq, ih rest, Except.map]
        · by_cases h4 : c = '\r'
          · subst h4
            rw [show escChar '\r' = ['\\', 'r'] from rfl]
            simp only [List.cons_append, List.nil_append]
            rw [pStringBody.eq_def]
            simp only [Char.reduceEq, reduceIte, reduceCtorEq, ih rest, Except.map]
          · by_cases h5 : c = '\x08'
            · subst h5
              rw [show escChar '\x08' = ['\\', 'b'] from rfl]
              simp only [List.cons_append, List.nil_append]
              rw [pStringBody.eq_def]
              simp only [Char.reduceEq, reduceIte, reduceCtorEq, ih rest, Except.map]
            · by_cases h6 : c = '\x0c'
              · subst h6
                rw [show escChar '\x0c' = ['\\', 'f'] from rfl]
                simp only [List.cons_append, List.nil_append]
                rw [pStringBody.eq_def]
                simp only [Char.reduceEq, reduceIte, reduceCtorEq, ih rest, Except.map]
              · by_cases h7 : c.toNat < 32
                · rw [escChar, if_neg h1, if_neg h2, if_neg h3, if_neg h4, if_neg h5,
                    if_neg h6, if_pos h7, esc2]
                  have hx : hexVal (hexDigitChar (c.toNat / 16)) = some (c.toNat / 16) :=
                    hexVal_hexDigitChar _ (by omega)
                  have hy : hexVal (hexDigitChar (c.toNat % 16)) = some (c.toNat % 16) :=
                    hexVal_hexDigitChar _ (by omega)
                  simp only [List.cons_append, List.nil_append]
                  rw [pStringBody.eq_def]
                  simp only [Char.reduceEq, reduceIte, reduceCtorEq, hx, hy, hexVal_zero]
                  have hv : ((0 * 16 + 0) * 16 + c.toNat / 16) * 16 + c.toNat % 16
                      = c.toNat := by
                    omega
                  rw [hv, if_pos (Or.inl (by omega : c.toNat < 55296)), charOfNat_toNat,
                    ih rest]
                  rfl
                · rw [escChar, if_neg h1, if_neg h2, if_neg h3, if_neg h4, if_neg h5,
                    if_neg h6, if_neg h7]
                  have hq : ¬ c = '"' := fun h => h1 (Or.inl h)
                  have hb : ¬ c = '\\' := fun h => h1 (Or.inr h)
                  simp only [List.cons_append, List.nil_append]
                  rw [pStringBody.eq_def]
                  simp only [if_neg hq, if_neg hb, if_neg h7, ih rest, Except.map]

/-! Head-character facts for rendered values. -/

theorem digit_not_ws {c : Char} (h : c.isDigit = true) : ¬ isJsonWs c := by
  intro hw
  rcases hw with h1 | h1 | h1 | h1 <;> (subst h1; exact absurd h (by decide))

theorem sChars_head (v : Json) :
    ∃ c cs, sChars v = c :: cs ∧ ¬ isJsonWs c ∧ c ≠ ']' ∧ c ≠ '}' := by
  cases v with
  | num k =>
    by_cases hk : k < 0
    · refine ⟨'-', natDigits (-k).toNat, ?_, ?_, ?_, ?_⟩
      · show intChars k = _
        rw [intChars, if_pos hk]
      · decide
      · decide
      · decide
    · obtain ⟨c, cs, heq, hdig, _, _⟩ := natDigits_spec k.toNat
      refine ⟨c, cs, ?_, digit_not_ws hdig, digit_ne_of hdig (by decide),
        digit_ne_of hdig (by decide)⟩
      show intChars k = _
      rw [intChars, if_neg hk, heq]
  | bool b => cases b <;> refine ⟨_, _, rfl, ?_, ?_, ?_⟩ <;> decide
  | null => refine ⟨_, _, rfl, ?_, ?_, ?_⟩ <;> decide
  | str s => refine ⟨_, _, rfl, ?_, ?_, ?_⟩ <;> decide
  | arr xs => refine ⟨_, _, rfl, ?_, ?_, ?_⟩ <;> decide
  | obj fs => refine ⟨_, _, rfl, ?_, ?_, ?_⟩ <;> decide

/-! Single-step evaluation of the parser on disambiguated input. -/

theorem pVal_step_null (m : Nat) (rest : List Char) :
    pVal (m + 1) ('n' :: 'u' :: 'l' :: 'l' :: rest) = .ok (Json.null, rest) := by
  simp only [pVal, skipWs, isJsonWs, Char.reduceEq, reduceIte, or_self, or_false, false_or,
    expectChars, Except.map]

theorem pVal_step_true (m : Nat) (rest : List Char) :
    pVal (m + 1) ('t' :: 'r' :: 'u' :: 'e' :: rest) = .ok (Json.bool true, rest) := by
  simp only [pVal, skipWs, isJsonWs, Char.reduceEq, reduceIte, or_self, or_false, false_or,
    expectChars, Except.map]

theorem pVal_step_false (m : Nat) (rest : List Char) :
    pVal (m + 1) ('f' :: 'a' :: 'l' :: 's' :: 'e' :: rest) = .ok (Json.bool false, rest) := by
  simp only [pVal, skipWs, isJsonWs, Char.reduceEq, reduceIte, or_self, or_false, false_or,
    expectChars, Except.map]

theorem pVal_step_str (m : Nat) (cs : List Char) :
    pVal (m + 1) ('"' :: cs) =
      (pStringBody cs).map (fun p => (Json.str (String.mk p.1), p.2)) := by
  simp only [pVal, skipWs, isJsonWs, Char.reduceEq, reduceIte, or_self, or_false, false_or]

theorem pVal_step_num (m : Nat) (c : Char) (cs : List Char)
    (hnws : ¬ isJsonWs c) (h1 : c ≠ 'n') (h2 : c ≠ 't') (h3 : c ≠ 'f') (h4 : c ≠ '"')
    (h5 : c ≠ '[') (h6 : c ≠ '{') :
    pVal (m + 1) (c :: cs) = pNumber (c :: cs) := by
  have hnws2 : ¬(c = ' ' ∨ c = '\n' ∨ c = '\t' ∨ c = '\r') := hnws
  simp only [pVal, skipWs, isJsonWs]
  rw [if_neg hnws2]
  simp only [if_neg h1, if_neg h2, if_neg h3, if_neg h4, if_neg h5, if_neg h6]

theorem pVal_step_arr_nil (m : Nat) (rest : List Char) :
    pVal (m + 1) ('[' :: ']' :: rest) = .ok (Json.arr .nil, rest) := by
  simp only [pVal, skipWs, isJsonWs, Char.reduceEq, reduceIte, or_self, or_false, false_or]

theorem pVal_step_arr_cons (m : Nat) (c2 : Char) (cs2 : List Char)
    (hnws : ¬ isJsonWs c2) (hne : c2 ≠ ']') :
    pVal (m + 1) ('[' :: c2 :: cs2) =
      (pElems m (c2 :: cs2)).map (fun p => (Json.arr p.1, p.2)) := by
  have hnws2 : ¬(c2 = ' ' ∨ c2 = '\n' ∨ c2 = '\t' ∨ c2 = '\r') := hnws
  simp only [pVal, skipWs, isJsonWs, Char.reduceEq, reduceIte, or_self, or_false, false_or]
  rw [if_neg hnws2]
  simp only [if_neg hne, Except.map]

theorem pVal_step_obj_nil (m : Nat) (rest : List Char) :
    pVal (m + 1) ('{' :: '}' :: rest) = .ok (Json.obj .nil, rest) := by
  simp only [pVal, skipWs, isJsonWs, Char.reduceEq, reduceIte, or_self, or_false, false_or]

theorem pVal_step_obj_cons (m : Nat) (c2 : Char) (cs2 : List Char)
    (hnws : ¬ isJsonWs c2) (hne : c2 ≠ '}') :
    pVal (m + 1) ('{' :: c2 :: cs2) =
      (pMembers m (c2 :: cs2)).map (fun p => (Json.obj p.1, p.2)) := by
  have hnws2 : ¬(c2 = ' ' ∨ c2 = '\n' ∨ c2 = '\t' ∨ c2 = '\r') := hnws
  simp only [pVal, skipWs, isJsonWs, Char.reduceEq, reduceIte, or_self, or_false, false_or]
  rw [if_neg hnws2]
  simp only [if_neg hne, Except.map]

theorem pElems_step (m : Nat) (cs : List Char) (v : Json) (c : Char) (cs2 : List Char)
    (hv : pVal m cs = .ok (v, c :: cs2)) (hnws : ¬ isJsonWs c) :
    pElems (m + 1) cs =
      if c = ',' then (pElems m cs2).map (fun p => (JsonArr.cons v p.1, p.2))
      else if c = ']' then .ok (JsonArr.cons v .nil, cs2)
      else .error (c :: cs2) := by
  have hnws2 : ¬(c = ' ' ∨ c = '\n' ∨ c = '\t' ∨ c = '\r') := hnws
  simp only [pElems, hv, skipWs, isJsonWs]
  rw [if_neg hnws2]

theorem pMembers_step (m : Nat) (cs1 kl cs3 : List Char) (v : Json) (c3 : Char)
    (cs5 : List Char)
    (hs : pStringBody cs1 = .ok (kl, ':' :: cs3))
    (hv : pVal m cs3 = .ok (v, c3 :: cs5))
    (hnws : ¬ isJsonWs c3) :
    pMembers (m + 1) ('"' :: cs1) =
      if c3 = ',' then (pMembers m cs5).map (fun p => (JsonObj.cons (String.mk kl) v p.1, p.2))
      else if c3 = '}' then .ok (JsonObj.cons (String.mk kl) v .nil, cs5)
      else .error (c3 :: cs5) := by
  have hnws2 : ¬(c3 = ' ' ∨ c3 = '\n' ∨ c3 = '\t' ∨ c3 = '\r') := hnws
  simp only [pMembers, skipWs, isJsonWs, Char.reduceEq, reduceIte, or_self, or_false, false_or,
    hs, hv]
  rw [if_neg hnws2]

theorem numSafe_of (c : Char) (h : c.isDigit = false) (cs : List Char) : numSafe (c :: cs) := h

theorem numSafe_nil : numSafe [] := trivial

/-! The parser inverts the serializer: mutual induction over the value,
its array elements and its object fields. -/

mutual

theorem pVal_enc : ∀ (v : Json) (n : Nat) (rest : List Char),
    (sChars v).length < n → numSafe rest → pVal n (sChars v ++ rest) = .ok (v, rest)
  | .null, n, rest, hn, _ => by
    obtain ⟨m, rfl⟩ : ∃ m, n = m + 1 := ⟨n - 1, by omega⟩
    exact pVal_step_null m rest
  | .bool true, n, rest, hn, _ => by
    obtain ⟨m, rfl⟩ : ∃ m, n = m + 1 := ⟨n - 1, by omega⟩
    exact pVal_step_true m rest
  | .bool false, n, rest, hn, _ => by
    obtain ⟨m, rfl⟩ : ∃ m, n = m + 1 := ⟨n - 1, by omega⟩
    exact pVal_step_false m rest
  | .num k, n, rest, hn, hrest => by
    obtain ⟨m, rfl⟩ : ∃ m, n = m + 1 := ⟨n - 1, by omega⟩
    obtain ⟨c, cs0, heq0, hc⟩ : ∃ c cs0, intChars k = c :: cs0 ∧ (c = '-' ∨ c.isDigit = true) := by
      by_cases hk : k < 0
      · exact ⟨'-', natDigits (-k).toNat, by rw [intChars, if_pos hk], Or.inl rfl⟩
      · obtain ⟨c, cs, h1, h2, _, _⟩ := natDigits_spec k.toNat
        exact ⟨c, cs, by rw [intChars, if_neg hk, h1], Or.inr h2⟩
    have hnws : ¬ isJsonWs c := by
      rcases hc with h | h
      · subst h; decide
      · exact digit_not_ws h
    have hne : ∀ d : Char, d.isDigit = false → '-' ≠ d → c ≠ d := by
      intro d hd hmd
      rcases hc with h | h
      · subst h; exact hmd
      · exact digit_ne_of h hd
    show pVal (m + 1) (intChars k ++ rest) = .ok (Json.num k, rest)
    rw [heq0, List.cons_append,
      pVal_step_num m c (cs0 ++ rest) hnws (hne 'n' (by decide) (by decide))
        (hne 't' (by decide) (by decide)) (hne 'f' (by decide) (by decide))
        (hne '"' (by decide) (by decide)) (hne '[' (by decide) (by decide))
        (hne '{' (by decide) (by decide)),
      ← List.cons_append, ← heq0, pNumber_intChars k rest hrest]
  | .str s, n, rest, hn, _ => by
    obtain ⟨m, rfl⟩ : ∃ m, n = m + 1 := ⟨n - 1, by omega⟩
    show pVal (m + 1) (escString s ++ rest) = .ok (.str s, rest)
    rw [escString, List.cons_append,
      show ((s.data.map escChar).flatten ++ ['"']) ++ rest
          = (s.data.map escChar).flatten ++ ('"' :: rest) from by rw [List.append_assoc]; rfl,
      pVal_step_str, pStringBody_esc s.data rest]
    rfl
  | .arr .nil, n, rest, hn, _ => by
    obtain ⟨m, rfl⟩ : ∃ m, n = m + 1 := ⟨n - 1, by omega⟩
    show pVal (m + 1) ('[' :: ']' :: rest) = .ok (.arr .nil, rest)
    exact pVal_step_arr_nil m rest
  | .arr (.cons w ws), n, rest, hn, _ => by
    obtain ⟨m, rfl⟩ : ∃ m, n = m + 1 := ⟨n - 1, by omega⟩
    obtain ⟨c, cs0, heq0, hnws, hner, _⟩ := sChars_head w
    have ht : ∃ t, sArrBody (.cons w ws) = c :: t := by
      cases ws with
      | nil => exact ⟨cs0, by rw [show sArrBody (.cons w .nil) = sChars w from rfl, heq0]⟩
      | cons w2 ws2 =>
        refine ⟨cs0 ++ ',' :: sArrBody (.cons w2 ws2), ?_⟩
        rw [show sArrBody (.cons w (.cons w2 ws2))
            = sChars w ++ ',' :: sArrBody (.cons w2 ws2) from rfl, heq0]
        rfl
    obtain ⟨t, ht⟩ := ht
    have hlen : (sChars (.arr (.cons w ws))).length
        = (sArrBody (.cons w ws)).length + 2 := by
      rw [show sChars (.arr (.cons w ws)) = '[' :: (sArrBody (.cons w ws) ++ [']']) from rfl]
      simp
    show pVal (m + 1) (('[' :: (sArrBody (.cons w ws) ++ [']'])) ++ rest) = _
    rw [List.cons_append,
      show (sArrBody (.cons w ws) ++ [']']) ++ rest
          = sArrBody (.cons w ws) ++ (']' :: rest) from by rw [List.append_assoc]; rfl,
      show sArrBody (.cons w ws) ++ (']' :: rest) = c :: (t ++ ']' :: rest) from by
        rw [ht]; rfl,
      pVal_step_arr_cons m c (t ++ ']' :: rest) hnws hner,
      show (c :: (t ++ ']' :: rest)) = sArrBody (.cons w ws) ++ ']' :: rest from by
        rw [ht]; rfl,
      pElems_enc w ws m rest (by omega)]
    rfl
  | .obj .nil, n, rest, hn, _ => by
    obtain ⟨m, rfl⟩ : ∃ m, n = m + 1 := ⟨n - 1, by omega⟩
    show pVal (m + 1) ('{' :: '}' :: rest) = .ok (.obj .nil, rest)
    exact pVal_step_obj_nil m rest
  | .obj (.cons k w fs2), n, rest, hn, _ => by
    obtain ⟨m, rfl⟩ : ∃ m, n = m + 1 := ⟨n - 1, by omega⟩
    have ht : ∃ t, sObjBody (.cons k w fs2) = '"' :: t := by
      cases fs2 with
      | nil =>
        exact ⟨((k.data.map escChar).flatten ++ ['"']) ++ ':' :: sChars w, by
          rw [show sObjBody (.cons k w .nil) = escString k ++ ':' :: sChars w from rfl,
            escString]; rfl⟩
      | cons k2 w2 fs3 =>
        exact ⟨((k.data.map escChar).flatten ++ ['"'])
            ++ ':' :: sChars w ++ ',' :: sObjBody (.cons k2 w2 fs3), by
          rw [show sObjBody (.cons k w (.cons k2 w2 fs3))
              = escString k ++ ':' :: sChars w ++ ',' :: sObjBody (.cons k2 w2 fs3) from rfl,
            escString]; rfl⟩
    obtain ⟨t, ht⟩ := ht
    have hlen : (sChars (.obj (.cons k w fs2))).length
        = (sObjBody (.cons k w fs2)).length + 2 := by
      rw [show sChars (.obj (.cons k w fs2))
          = '{' :: (sObjBody (.cons k w fs2) ++ ['}']) from rfl]
      simp
    show pVal (m + 1) (('{' :: (sObjBody (.cons k w fs2) ++ ['}'])) ++ rest) = _
    rw [List.cons_append,
      show (sObjBody (.cons k w fs2) ++ ['}']) ++ rest
          = sObjBody (.cons k w fs2) ++ ('}' :: rest) from by rw [List.append_assoc]; rfl,
      show sObjBody (.cons k w fs2) ++ ('}' :: rest) = '"' :: (t ++ '}' :: rest) from by
        rw [ht]; rfl,
      pVal_step_obj_cons m '"' (t ++ '}' :: rest) (by decide) (by decide),
      show ('"' :: (t ++ '}' :: rest)) = sObjBody (.cons k w fs2) ++ '}' :: rest from by
        rw [ht]; rfl,
      pMembers_enc k w fs2 m rest (by omega)]
    rfl
termination_by v _ _ => sizeOf v
decreasing_by all_goals (simp_wf; try omega)

theorem pElems_enc : ∀ (v : Json) (vs : JsonArr) (m : Nat) (rest : List Char),
    (sArrBody (.cons v vs)).length + 1 < m →
    pElems m (sArrBody (.cons v vs) ++ ']' :: rest) = .ok (.cons v vs, rest)
  | v, .nil, m, rest, hm => by
    obtain ⟨m2, rfl⟩ : ∃ m2, m = m2 + 1 := ⟨m - 1, by omega⟩
    have hv : pVal m2 (sChars v ++ ']' :: rest) = .ok (v, ']' :: rest) :=
      pVal_enc v m2 (']' :: rest)
        (by have h2 : (sArrBody (.cons v .nil)).length = (sChars v).length := rfl; omega)
        (numSafe_of ']' (by decide) rest)
    rw [show sArrBody (.cons v .nil) = sChars v from rfl,
      pElems_step m2 _ v ']' rest hv (by decide)]
    simp only [Char.reduceEq, reduceIte]
  | v, .cons w ws, m, rest, hm => by
    obtain ⟨m2, rfl⟩ : ∃ m2, m = m2 + 1 := ⟨m - 1, by omega⟩
    have hshape : sArrBody (.cons v (.cons w ws)) ++ ']' :: rest
        = sChars v ++ (',' :: (sArrBody (.cons w ws) ++ ']' :: rest)) := by
      rw [show sArrBody (.cons v (.cons w ws))
          = sChars v ++ ',' :: sArrBody (.cons w ws) from rfl]
      rw [List.append_assoc]
      rfl
    have hblen : (sArrBody (.cons v (.cons w ws))).length
        = (sChars v).length + 1 + (sArrBody (.cons w ws)).length := by
      rw [show sArrBody (.cons v (.cons w ws))
          = sChars v ++ ',' :: sArrBody (.cons w ws) from rfl]
      simp
      omega
    have hv : pVal m2 (sChars v ++ (',' :: (sArrBody (.cons w ws) ++ ']' :: rest)))
        = .ok (v, ',' :: (sArrBody (.cons w ws) ++ ']' :: rest)) :=
      pVal_enc v m2 _ (by omega) (numSafe_of ',' (by decide) _)
    rw [hshape, pElems_step m2 _ v ',' _ hv (by decide), if_pos rfl,
      pElems_enc w ws m2 rest (by omega)]
    rfl
termination_by v vs _ _ => 1 + sizeOf v + sizeOf vs
decreasing_by all_goals (simp_wf; try omega)

theorem pMembers_enc : ∀ (k : String) (v : Json) (fs : JsonObj) (m : Nat) (rest : List Char),
    (sObjBody (.cons k v fs)).length + 1 < m →
    pMembers m (sObjBody (.cons k v fs) ++ '}' :: rest) = .ok (.cons k v fs, rest)
  | k, v, .nil, m, rest, hm => by
    obtain ⟨m2, rfl⟩ : ∃ m2, m = m2 + 1 := ⟨m - 1, by omega⟩
    have hshape : sObjBody (.cons k v .nil) ++ '}' :: rest
        = '"' :: ((k.data.map escChar).flatten ++ ('"' :: (':' :: (sChars v ++ '}' :: rest)))) := by
      rw [show sObjBody (.cons k v .nil) = escString k ++ ':' :: sChars v from rfl, escString]
      simp
    have holen : (sObjBody (.cons k v .nil)).length
        = (escString k).length + 1 + (sChars v).length := by
      rw [show sObjBody (.cons k v .nil) = escString k ++ ':' :: sChars v from rfl]
      simp
      omega
    have hklen : 2 ≤ (escString k).length := by
      rw [escString]
      simp
    have hs := pStringBody_esc k.data (':' :: (sChars v ++ '}' :: rest))
    have hv : pVal m2 (sChars v ++ '}' :: rest) = .ok (v, '}' :: rest) :=
      pVal_enc v m2 _ (by omega) (numSafe_of '}' (by decide) rest)
    rw [hshape, pMembers_step m2 _ k.data _ v '}' rest hs hv (by decide)]
    simp only [Char.reduceEq, reduceIte]
  | k, v, .cons k2 v2 fs3, m, rest, hm => by
    obtain ⟨m2, rfl⟩ : ∃ m2, m = m2 + 1 := ⟨m - 1, by omega⟩
    have hshape : sObjBody (.cons k v (.cons k2 v2 fs3)) ++ '}' :: rest
        = '"' :: ((k.data.map escChar).flatten ++ ('"' :: (':' ::
            (sChars v ++ (',' :: (sObjBody (.cons k2 v2 fs3) ++ '}' :: rest)))))) := by
      rw [show sObjBody (.cons k v (.cons k2 v2 fs3))
          = escString k ++ ':' :: sChars v ++ ',' :: sObjBody (.cons k2 v2 fs3) from rfl,
        escString]
      simp
    have holen : (sObjBody (.cons k v (.cons k2 v2 fs3))).length
        = (escString k).length + 1 + (sChars v).length + 1
          + (sObjBody (.cons k2 v2 fs3)).length := by
      rw [show sObjBody (.cons k v (.cons k2 v2 fs3))
          = escString k ++ ':' :: sChars v ++ ',' :: sObjBody (.cons k2 v2 fs3) from rfl]
      simp
      omega
    have hklen : 2 ≤ (escString k).length := by
      rw [escString]
      simp
    have hs := pStringBody_esc k.data
      (':' :: (sChars v ++ (',' :: (sObjBody (.cons k2 v2 fs3) ++ '}' :: rest))))
    have hv : pVal m2 (sChars v ++ (',' :: (sObjBody (.cons k2 v2 fs3) ++ '}' :: rest)))
        = .ok (v, ',' :: (sObjBody (.cons k2 v2 fs3) ++ '}' :: rest)) :=
      pVal_enc v m2 _ (by omega) (numSafe_of ',' (by decide) _)
    rw [hshape, pMembers_step m2 _ k.data _ v ',' _ hs hv (by decide), if_pos rfl,
      pMembers_enc k2 v2 fs3 m2 rest (by omega)]
    rfl
termination_by _ v fs _ _ => 1 + sizeOf v + sizeOf fs
decreasing_by all_goals (simp_wf; try omega)

end
/-- `JSON.parse` inverts `JSON.stringify`. -/
theorem jsonParse_stringify (v : Json) : jsonParse (stringify v) = .ok v := by
  have hp : pVal ((stringify v).data.length + 1) ((stringify v).data) = .ok (v, []) := by
    have h2 := pVal_enc v ((sChars v).length + 1) [] (by omega) numSafe_nil
    rw [List.append_nil] at h2
    exact h2
  rw [jsonParse, hp]
  rfl

/-! The serializer never emits a raw newline: strings escape theirs, so
each record's rendering is a single line. -/

theorem hexDigitChar_ne_nl (n : Nat) : hexDigitChar n ≠ '\n' := by
  rw [hexDigitChar]
  by_cases h1 : n < 10
  · rw [if_pos h1]
    interval_cases n <;> decide
  · rw [if_neg h1]
    by_cases h2 : n < 16
    · rw [if_pos h2]
      interval_cases n <;> decide
    · rw [if_neg h2]
      decide

theorem escChar_no_nl (c : Char) : '\n' ∉ escChar c := by
  rw [escChar]
  split_ifs with h1 h2 h3 h4 h5 h6 h7
  · rcases h1 with h | h <;> (subst h; decide)
  · decide
  · decide
  · decide
  · decide
  · decide
  · intro hm
    rcases List.mem_append.mp hm with h | h
    · exact absurd h (by decide)
    · simp only [List.mem_cons, List.mem_singleton, List.not_mem_nil, or_false] at h
      rcases h with h | h | h | h
      · exact absurd h (by decide)
      · exact absurd h (by decide)
      · exact absurd h.symm (hexDigitChar_ne_nl _)
      · exact absurd h.symm (hexDigitChar_ne_nl _)
  · intro hm
    rw [List.mem_singleton] at hm
    rw [← hm] at h7
    exact h7 (by decide)

theorem natDigits_no_nl (m : Nat) : '\n' ∉ natDigits m := by
  obtain ⟨c, cs, heq, _, _, hall⟩ := natDigits_spec m
  rw [heq]
  intro hm
  exact absurd (hall _ hm) (by decide)

theorem intChars_no_nl (k : Int) : '\n' ∉ intChars k := by
  rw [intChars]
  split_ifs with h
  · intro hm
    rcases List.mem_cons.mp hm with h1 | h1
    · exact absurd h1 (by decide)
    · exact natDigits_no_nl _ h1
  · exact natDigits_no_nl _

theorem escString_no_nl (s : String) : '\n' ∉ escString s := by
  rw [escString]
  intro hm
  rcases List.mem_cons.mp hm with h | h
  · exact absurd h (by decide)
  · rcases List.mem_append.mp h with h | h
    · obtain ⟨l, hl, hmem⟩ := List.mem_flatten.mp h
      obtain ⟨c, _, rfl⟩ := List.mem_map.mp hl
      exact escChar_no_nl c hmem
    · rw [List.mem_singleton] at h
      exact absurd h (by decide)

mutual

theorem sChars_no_nl : ∀ (v : Json), '\n' ∉ sChars v
  | .null => by decide
  | .bool true => by decide
  | .bool false => by decide
  | .num k => intChars_no_nl k
  | .str s => escString_no_nl s
  | .arr .nil => by decide
  | .arr (.cons w ws) => by
    intro hm
    rcases List.mem_cons.mp hm with h | h
    · exact absurd h (by decide)
    · rcases List.mem_append.mp h with h | h
      · exact sArrBody_no_nl w ws h
      · rw [List.mem_singleton] at h
        exact absurd h (by decide)
  | .obj .nil => by decide
  | .obj (.cons k w fs) => by
    intro hm
    rcases List.mem_cons.mp hm with h | h
    · exact absurd h (by decide)
    · rcases List.mem_append.mp h with h | h
      · exact sObjBody_no_nl k w fs h
      · rw [List.mem_singleton] at h
        exact absurd h (by decide)
termination_by v => sizeOf v
decreasing_by all_goals (simp_wf; try omega)

theorem sArrBody_no_nl : ∀ (v : Json) (vs : JsonArr), '\n' ∉ sArrBody (.cons v vs)
  | v, .nil => sChars_no_nl v
  | v, .cons w ws => by
    intro hm
    rcases List.mem_append.mp hm with h | h
    · exact sChars_no_nl v h
    · rcases List.mem_cons.mp h with h | h
      · exact absurd h (by decide)
      · exact sArrBody_no_nl w ws h
termination_by v vs => 1 + sizeOf v + sizeOf vs
decreasing_by all_goals (simp_wf; try omega)

theorem sObjBody_no_nl : ∀ (k : String) (v : Json) (fs : JsonObj), '\n' ∉ sObjBody (.cons k v fs)
  | k, v, .nil => by
    intro hm
    rcases List.mem_append.mp hm with h | h
    · exact escString_no_nl k h
    · rcases List.mem_cons.mp h with h | h
      · exact absurd h (by decide)
      · exact sChars_no_nl v h
  | k, v, .cons k2 v2 fs3 => by
    intro hm
    rcases List.mem_append.mp hm with h | h
    · rcases List.mem_append.mp h with h | h
      · exact escString_no_nl k h
      · rcases List.mem_cons.mp h with h | h
        · exact absurd h (by decide)
        · exact sChars_no_nl v h
    · rcases List.mem_cons.mp h with h | h
      · exact absurd h (by decide)
      · exact sObjBody_no_nl k2 v2 fs3 h
termination_by _ v fs => 1 + sizeOf v + sizeOf fs
decreasing_by all_goals (simp_wf; try omega)

end

theorem stringify_no_nl (v : Json) : '\n' ∉ (stringify v).data :=
  sChars_no_nl v

/-! The newline join/split pair used for the JSONL framing. -/

theorem splitNlChars_append (l : List Char) (hl : '\n' ∉ l) :
    ∀ (cs r : List Char) (rs : List (List Char)),
    splitNlChars cs = r :: rs → splitNlChars (l ++ cs) = (l ++ r) :: rs := by
  induction l with
  | nil =>
    intro cs r rs h
    simpa using h
  | cons c l ih =>
    intro cs r rs h
    have hc : c ≠ '\n' := fun he => hl (by rw [he]; exact List.mem_cons_self _ _)
    have h2 := ih (fun hm => hl (List.mem_cons_of_mem c hm)) cs r rs h
    simp only [List.cons_append, splitNlChars, if_neg hc, List.append_eq, h2]

theorem splitNlChars_single (l : List Char) (hl : '\n' ∉ l) : splitNlChars l = [l] := by
  have h := splitNlChars_append l hl [] [] [] rfl
  simpa using h

theorem splitNlChars_joinChars : ∀ (p : List Char) (ps : List (List Char)),
    (∀ q ∈ p :: ps, '\n' ∉ q) → splitNlChars (joinChars (p :: ps)) = p :: ps := by
  intro p ps
  induction ps generalizing p with
  | nil =>
    intro h
    exact splitNlChars_single p (h p (by simp))
  | cons q ps ih =>
    intro h
    have hrec := ih q (fun x hx => h x (by
      rcases List.mem_cons.mp hx with h1 | h1
      · rw [h1]; exact List.mem_cons_of_mem p (List.mem_cons_self q ps)
      · exact List.mem_cons_of_mem p (List.mem_cons_of_mem q h1)))
    have hstep : splitNlChars ('\n' :: joinChars (q :: ps)) = [] :: (q :: ps) := by
      simp [splitNlChars, hrec]
    have hmain := splitNlChars_append p (h p (by simp)) ('\n' :: joinChars (q :: ps))
      [] (q :: ps) hstep
    rw [show joinChars (p :: q :: ps) = p ++ '\n' :: joinChars (q :: ps) from rfl, hmain,
      List.append_nil]

/-- Linewise parsing inverts the linewise rendering. -/
theorem mapParse_stringify (l : List Json) : mapParse (l.map stringify) = .ok l := by
  induction l with
  | nil => rfl
  | cons v l ih => simp only [List.map_cons, mapParse, jsonParse_stringify v, ih]

/-- Splitting the encoded text recovers exactly the per-record
renderings, in order, for a nonempty record sequence. -/
theorem splitNl_encodeJSONL (rs : List Json) (h : rs ≠ []) :
    splitNl (encodeJSONL rs) = rs.map stringify := by
  match rs with
  | r :: rs2 =>
    rw [splitNl, encodeJSONL,
      show (String.mk (joinChars ((r :: rs2).map sChars))).data
        = joinChars (sChars r :: rs2.map sChars) from rfl,
      splitNlChars_joinChars (sChars r) (rs2.map sChars) ?hnonl]
    case hnonl =>
      intro q hq
      rcases List.mem_cons.mp hq with h1 | h1
      · rw [h1]; exact sChars_no_nl r
      · obtain ⟨v, _, rfl⟩ := List.mem_map.mp h1
        exact sChars_no_nl v
    rw [List.map_cons, List.map_map, List.map_cons]
    rfl

/-- Decoding inverts encoding for every nonempty record sequence. -/
theorem decode_encode (rs : List Json) (h : rs ≠ []) :
    decodeJSONL (encodeJSONL rs) = .ok rs := by
  rw [decodeJSONL, splitNl_encodeJSONL rs h, mapParse_stringify]

/-! Characterization of the linewise decode. -/

theorem mapParse_ok_iff (ls : List String) (rs : List Json) :
    mapParse ls = .ok rs ↔ ls.map jsonParse = rs.map Except.ok := by
  induction ls generalizing rs with
  | nil =>
    constructor
    · intro h
      have h2 : rs = [] := by
        have h3 : (Except.ok [] : Except JsError (List Json)) = .ok rs := h
        simpa using h3.symm
      subst h2
      rfl
    · intro h
      have h2 : rs = [] := by
        cases rs with
        | nil => rfl
        | cons r rs2 => simp at h
      subst h2
      rfl
  | cons l ls ih =>
    cases hj : jsonParse l with
    | error e =>
      constructor
      · intro h
        simp [mapParse, hj] at h
      · intro h
        cases rs with
        | nil => simp at h
        | cons r rs2 =>
          rw [List.map_cons, List.map_cons, hj] at h
          simp at h
    | ok v =>
      cases hm : mapParse ls with
      | error e =>
        constructor
        · intro h
          simp [mapParse, hj, hm] at h
        · intro h
          cases rs with
          | nil => simp at h
          | cons r rs2 =>
            rw [List.map_cons, List.map_cons] at h
            obtain ⟨h1, h2⟩ := List.cons_eq_cons.mp h
            have h3 := (ih rs2).mpr h2
            rw [h3] at hm
            cases hm
      | ok vs =>
        constructor
        · intro h
          have h2 : rs = v :: vs := by
            have h3 : (Except.ok (v :: vs) : Except JsError (List Json)) = .ok rs := by
              rw [← h]
              simp [mapParse, hj, hm]
            simpa using h3.symm
          subst h2
          rw [List.map_cons, List.map_cons, hj, (ih vs).mp hm]
        · intro h
          cases rs with
          | nil => simp at h
          | cons r rs2 =>
            rw [List.map_cons, List.map_cons] at h
            obtain ⟨h1, h2⟩ := List.cons_eq_cons.mp h
            have hm2 := (ih rs2).mpr h2
            have hv : v = r := by rw [hj] at h1; simpa using h1
            have hvs : rs2 = vs := by rw [hm2] at hm; simpa using hm
            subst hv
            subst hvs
            simp [mapParse, hj, hm]

theorem mapParse_error_iff (ls : List String) (e : JsError) :
    mapParse ls = .error e ↔
      ∃ pre x post, ls = pre ++ x :: post ∧ jsonParse x = .error e ∧
        ∀ y ∈ pre, ∃ v, jsonParse y = .ok v := by
  induction ls with
  | nil =>
    constructor
    · intro h
      cases h
    · rintro ⟨pre, x, post, habs, _, _⟩
      cases pre with
      | nil => simp at habs
      | cons p pre2 => simp at habs
  | cons l ls ih =>
    cases hj : jsonParse l with
    | error e0 =>
      constructor
      · intro h
        have he : e0 = e := by simpa [mapParse, hj] using h
        exact ⟨[], l, ls, rfl, by rw [hj, he], by simp⟩
      · rintro ⟨pre, x, post, hsplit, hx, hpre⟩
        cases pre with
        | nil =>
          obtain ⟨h1, h2⟩ := List.cons_eq_cons.mp (by simpa using hsplit)
          have hjl : jsonParse l = .error e := by rw [h1]; exact hx
          simp [mapParse, hjl]
        | cons p pre2 =>
          obtain ⟨h1, h2⟩ := List.cons_eq_cons.mp (by simpa using hsplit)
          obtain ⟨v, hv⟩ := hpre p (List.mem_cons_self p pre2)
          rw [← h1, hj] at hv
          cases hv
    | ok v =>
      constructor
      · intro h
        have hm : mapParse ls = .error e := by
          cases hm2 : mapParse ls with
          | error e2 =>
            have he : e2 = e := by simpa [mapParse, hj, hm2] using h
            exact congrArg Except.error he
          | ok vs => simp [mapParse, hj, hm2] at h
        obtain ⟨pre, x, post, h1, h2, h3⟩ := ih.mp hm
        refine ⟨l :: pre, x, post, by rw [h1, List.cons_append], h2, ?_⟩
        intro y hy
        rcases List.mem_cons.mp hy with h4 | h4
        · exact ⟨v, by rw [h4]; exact hj⟩
        · exact h3 y h4
      · rintro ⟨pre, x, post, hsplit, hx, hpre⟩
        cases pre with
        | nil =>
          obtain ⟨h1, h2⟩ := List.cons_eq_cons.mp (by simpa using hsplit)
          rw [← h1, hj] at hx
          cases hx
        | cons p pre2 =>
          obtain ⟨h1, h2⟩ := List.cons_eq_cons.mp (by simpa using hsplit)
          have hm : mapParse ls = .error e := by
            refine ih.mpr ⟨pre2, x, post, h2, hx, ?_⟩
            intro y hy
            exact hpre y (List.mem_cons_of_mem p hy)
          simp [mapParse, hj, hm]

/-! The partition predicate and the failure filter. -/

theorem successIsFalse_null :
    successIsFalse Json.null
      = .error (.typeError "Cannot read properties of null (reading success)") := rfl

theorem successIsFalse_eq (r : Json) (h : r ≠ Json.null) :
    successIsFalse r = .ok (hasSuccessFalse r) := by
  cases r with
  | null => exact absurd rfl h
  | bool b => rfl
  | num k => rfl
  | str s => rfl
  | arr xs => rfl
  | obj fs =>
    cases hl : objLookup fs "success" with
    | none => simp [successIsFalse, jsGetField, hasSuccessFalse, hl]
    | some j =>
      cases j with
      | null => simp [successIsFalse, jsGetField, hasSuccessFalse, hl]
      | bool b => cases b <;> simp [successIsFalse, jsGetField, hasSuccessFalse, hl]
      | num k => simp [successIsFalse, jsGetField, hasSuccessFalse, hl]
      | str s => simp [successIsFalse, jsGetField, hasSuccessFalse, hl]
      | arr xs => simp [successIsFalse, jsGetField, hasSuccessFalse, hl]
      | obj fs2 => simp [successIsFalse, jsGetField, hasSuccessFalse, hl]

theorem hasSuccessFalse_iff (r : Json) :
    hasSuccessFalse r = true ↔ successField r = some (Json.bool false) := by
  cases r with
  | obj fs =>
    cases hl : objLookup fs "success" with
    | none => simp [hasSuccessFalse, successField, hl]
    | some j =>
      cases j with
      | null => simp [hasSuccessFalse, successField, hl]
      | bool b => cases b <;> simp [hasSuccessFalse, successField, hl]
      | num k => simp [hasSuccessFalse, successField, hl]
      | str s => simp [hasSuccessFalse, successField, hl]
      | arr xs => simp [hasSuccessFalse, successField, hl]
      | obj fs2 => simp [hasSuccessFalse, successField, hl]
  | null => simp [hasSuccessFalse, successField]
  | bool b => simp [hasSuccessFalse, successField]
  | num k => simp [hasSuccessFalse, successField]
  | str s => simp [hasSuccessFalse, successField]
  | arr xs => simp [hasSuccessFalse, successField]

theorem filterFailedE_no_null (results : List Json) (h : Json.null ∉ results) :
    filterFailedE results = .ok (results.filter hasSuccessFalse) := by
  induction results with
  | nil => rfl
  | cons r rs ih =>
    have hr : r ≠ Json.null := fun he => h (by rw [he]; exact List.mem_cons_self _ _)
    have h2 : Json.null ∉ rs := fun hm => h (List.mem_cons_of_mem r hm)
    rw [List.filter_cons]
    cases hsf : hasSuccessFalse r with
    | true =>
      simp only [if_pos rfl, filterFailedE, successIsFalse_eq r hr, hsf, ih h2]
    | false =>
      simp only [filterFailedE, successIsFalse_eq r hr, hsf, ih h2]

theorem filterFailedE_spec (results : List Json) : ∀ failed,
    filterFailedE results = .ok failed →
    failed.length ≤ results.length ∧ (failed = [] ↔ ∀ r ∈ results, ¬ isFailure r) := by
  induction results with
  | nil =>
    intro failed h
    have h2 : failed = [] := by
      have h3 : (Except.ok [] : Except JsError (List Json)) = .ok failed := h
      simpa using h3.symm
    subst h2
    simp
  | cons r rs ih =>
    intro failed h
    cases hb : successIsFalse r with
    | error e => simp [filterFailedE, hb] at h
    | ok b =>
      cases hm : filterFailedE rs with
      | error e => simp [filterFailedE, hb, hm] at h
      | ok rest =>
        have h2 : failed = if b then r :: rest else rest := by
          have h3 : (Except.ok (if b then r :: rest else rest)
              : Except JsError (List Json)) = .ok failed := by
            rw [← h]
            simp [filterFailedE, hb, hm]
          simpa using h3.symm
        obtain ⟨hlen, hiff⟩ := ih rest hm
        cases b with
        | true =>
          subst h2
          rw [if_pos rfl]
          constructor
          · simp only [List.length_cons]
            omega
          · constructor
            · intro habs
              cases habs
            · intro hall
              exact absurd (show isFailure r from hb) (hall r (List.mem_cons_self _ _))
        | false =>
          subst h2
          refine ⟨by simp only [List.length_cons]; omega, ?_⟩
          rw [hiff]
          constructor
          · intro hall r2 hr2
            rcases List.mem_cons.mp hr2 with h3 | h3
            · subst h3
              intro hf
              rw [hf] at hb
              cases hb
            · exact hall r2 h3
          · intro hall r2 hr2
            exact hall r2 (List.mem_cons_of_mem _ hr2)

/-! Request and warning bookkeeping of `import`. -/

theorem importOp_requests (server : ApiRequest → String) (c : String)
    (input : ImportInput) (opts : WriteParams) :
    (importOp server c input opts).requests
      = [importRequest c opts
          (match input with
           | .docs ds => encodeJSONL ds
           | .raw s => s)] := by
  cases input with
  | raw s => rfl
  | docs ds =>
    simp only [importOp]
    split
    · rfl
    · split
      · rfl
      · split <;> rfl

theorem importOp_warnings (server : ApiRequest → String) (c : String)
    (input : ImportInput) (opts : WriteParams) :
    (importOp server c input opts).warnings = [] := by
  cases input with
  | raw s => rfl
  | docs ds =>
    simp only [importOp]
    split
    · rfl
    · split
      · rfl
      · split <;> rfl

/-! Claim theorems. -/

/-- C10: for `create`, `upsert` and `update`, an absent or falsy document
argument makes the operation throw `No document provided` before issuing
any request: no request is sent, no warning logged, no other effect. -/
theorem no_document_guard (server : ApiRequest → String) (c : String)
    (d : Option Json) (opts : WriteParams) (h : jsFalsy d = true) :
    createOp server c d opts = ⟨.error (.error "No document provided"), [], []⟩
    ∧ upsertOp server c d opts = ⟨.error (.error "No document provided"), [], []⟩
    ∧ updateOp server c d opts = ⟨.error (.error "No document provided"), [], []⟩ := by
  refine ⟨?_, ?_, ?_⟩ <;> simp [createOp, upsertOp, updateOp, h]

theorem no_document_guard_witness :
    createOp (fun _ => "") "books" none {} = ⟨.error (.error "No document provided"), [], []⟩ :=
  (no_document_guard (fun _ => "") "books" none {} rfl).1

/-- C9: `upsert` and `update` send the caller's options with `action`
forced to `upsert`/`update` respectively, overriding any caller-supplied
`action`; every other option field is passed through unchanged, and the
merged options are built on a fresh object (`Object.assign` with an
empty target), leaving the caller's options value untouched. -/
theorem write_action_override (server : ApiRequest → String) (c : String)
    (d : Option Json) (opts : WriteParams) (h : jsFalsy d = false) :
    (upsertOp server c d opts).requests
      = [writeDocRequest c (assignAction opts "upsert") (d.getD .null)]
    ∧ (assignAction opts "upsert").action = some "upsert"
    ∧ (assignAction opts "upsert").dirty_values = opts.dirty_values
    ∧ (updateOp server c d opts).requests
      = [writeDocRequest c (assignAction opts "update") (d.getD .null)]
    ∧ (assignAction opts "update").action = some "update"
    ∧ (assignAction opts "update").dirty_values = opts.dirty_values := by
  refine ⟨?_, rfl, rfl, ?_, rfl, rfl⟩ <;> simp [upsertOp, updateOp, h]

theorem write_action_override_witness :
    (upsertOp (fun _ => "") "books" (some (Json.obj .nil))
        { dirty_values := some "reject", action := some "create" }).requests
      = [writeDocRequest "books"
          { dirty_values := some "reject", action := some "upsert" } (Json.obj .nil)] := by
  have h := write_action_override (fun _ => "") "books" (some (Json.obj .nil))
      { dirty_values := some "reject", action := some "create" } rfl
  exact h.1

/-- C2: raw-text import passes the input text to the transport
unmodified, returns the transport's raw text response unmodified with no
decoding, and never raises an aggregate import error in this mode. -/
theorem import_raw_passthrough (server : ApiRequest → String) (c s : String)
    (opts : WriteParams) :
    importOp server c (.raw s) opts
      = ⟨.ok (.inr (server (importRequest c opts s))), [importRequest c opts s], []⟩
    ∧ ∀ e, (importOp server c (.raw s) opts).result ≠ .error e := by
  refine ⟨rfl, ?_⟩
  intro e h
  simp [importOp] at h

/-- C5: `export` issues exactly one request and returns the service's
raw response body exactly as received, with no transformation. -/
theorem export_single_request (server : ApiRequest → String) (c : String)
    (opts : ExportParams) :
    exportOp server c opts
      = ⟨.ok (server (exportRequest c opts)), [exportRequest c opts], []⟩
    ∧ (exportOp server c opts).requests.length = 1 :=
  ⟨rfl, rfl⟩

/-- C8: the deprecated `createMany` produces exactly the result (value
or error) and requests of `import` on the same array and options; its
only additional effect is logging the deprecation warning. -/
theorem createMany_delegates (server : ApiRequest → String) (c : String)
    (ds : List Json) (opts : WriteParams) :
    (createManyOp server c ds opts).result = (importOp server c (.docs ds) opts).result
    ∧ (createManyOp server c ds opts).requests = (importOp server c (.docs ds) opts).requests
    ∧ (createManyOp server c ds opts).warnings = [deprecationWarning] := by
  refine ⟨rfl, rfl, ?_⟩
  show deprecationWarning :: (importOp server c (.docs ds) opts).warnings = [deprecationWarning]
  rw [importOp_warnings]

/-- C6: a structured import posts a body that is the newline-join of
each record's independent single-line rendering, in input order with no
trailing separator: splitting the body on newlines gives back exactly
the per-record renderings, and no rendering contains a newline. -/
theorem import_body_jsonl (server : ApiRequest → String) (c : String)
    (ds : List Json) (opts : WriteParams) (h : ds ≠ []) :
    (importOp server c (.docs ds) opts).requests = [importRequest c opts (encodeJSONL ds)]
    ∧ splitNl (encodeJSONL ds) = ds.map stringify
    ∧ ∀ d ∈ ds, '\n' ∉ (stringify d).data := by
  refine ⟨?_, splitNl_encodeJSONL ds h, fun d _ => stringify_no_nl d⟩
  exact importOp_requests server c (.docs ds) opts

theorem import_body_jsonl_witness :
    (importOp (fun _ => "x") "books" (.docs [Json.num 1, Json.num 2]) {}).requests
      = [importRequest "books" {} "1\n2"]
    ∧ splitNl "1\n2" = ["1", "2"] := by
  have h := import_body_jsonl (fun _ => "x") "books" [Json.num 1, Json.num 2] {}
    (List.cons_ne_nil _ _)
  constructor
  · rw [h.1]
    exact rfl
  · exact h.2.1

/-- C1: a structured import, once the response decodes into per-record
results and every result is classifiable, raises the aggregate import
error exactly when at least one result is a failure; the error carries
the complete ordered result sequence and a summary counting K successes
and M failures with K + M equal to the total; on all-success the full
sequence is returned with no error. -/
theorem import_aggregate_error (server : ApiRequest → String) (c : String)
    (docs : List Json) (opts : WriteParams) (results failed : List Json)
    (hdec : decodeJSONL (server (importRequest c opts (encodeJSONL docs))) = .ok results)
    (hcls : filterFailedE results = .ok failed) :
    ((∃ r ∈ results, isFailure r) →
      (importOp server c (.docs docs) opts).result
        = .error (.importError
            (importSummary (results.length - failed.length) failed.length) results)
      ∧ (results.length - failed.length) + failed.length = results.length)
    ∧ ((∀ r ∈ results, ¬ isFailure r) →
      (importOp server c (.docs docs) opts).result = .ok (.inl results)) := by
  obtain ⟨hlen, hiff⟩ := filterFailedE_spec results failed hcls
  have hbody : importOp server c (.docs docs) opts
      = if 0 < failed.length then
          ⟨.error (.importError (importSummary (results.length - failed.length) failed.length)
            results), [importRequest c opts (encodeJSONL docs)], []⟩
        else ⟨.ok (.inl results), [importRequest c opts (encodeJSONL docs)], []⟩ := by
    simp only [importOp, hdec, hcls]
  constructor
  · intro hex
    have hfail : failed ≠ [] := by
      intro habs
      obtain ⟨r, hr, hf⟩ := hex
      exact (hiff.mp habs) r hr hf
    have hpos : 0 < failed.length := List.length_pos.mpr hfail
    rw [hbody, if_pos hpos]
    exact ⟨rfl, by omega⟩
  · intro hall
    have hnil : failed = [] := hiff.mpr hall
    rw [hbody, if_neg (by rw [hnil]; simp)]

theorem import_aggregate_error_witness :
    (importOp (fun _ => "\x7b\"success\":false\x7d") "books"
        (.docs [Json.obj .nil]) {}).result
      = .error (.importError (importSummary 0 1)
          [Json.obj (.cons "success" (.bool false) .nil)]) := by
  have h := import_aggregate_error (fun _ => "\x7b\"success\":false\x7d") "books"
      [Json.obj .nil] {} [Json.obj (.cons "success" (.bool false) .nil)]
      [Json.obj (.cons "success" (.bool false) .nil)] rfl rfl
  exact (h.1 ⟨Json.obj (.cons "success" (.bool false) .nil),
      List.mem_singleton.mpr rfl, rfl⟩).1

/-- C3 counterexample: the round-trip laws fail as stated.  The
well-formed (parseable) text `[1, 2]` decodes, but re-encoding yields
`[1,2]`, not the original text; and for the empty record sequence,
decoding the encoding (the empty text) fails instead of returning the
empty sequence, because splitting the empty text yields one empty line
that does not parse. -/
theorem codec_roundtrip_cex :
    decodeJSONL "[1, 2]" = .ok [Json.arr (.cons (.num 1) (.cons (.num 2) .nil))]
    ∧ encodeJSONL [Json.arr (.cons (.num 1) (.cons (.num 2) .nil))] = "[1,2]"
    ∧ "[1,2]" ≠ "[1, 2]"
    ∧ decodeJSONL (encodeJSONL ([] : List Json)) = .error (.parseError 0) :=
  ⟨rfl, rfl, by decide, rfl⟩

/-- C3 amended: for every nonempty record sequence, decoding the
encoding returns exactly the same records in the same order; and
encode-after-decode restores a text exactly when the text is canonical,
that is, itself the encoding of a nonempty record sequence. -/
theorem codec_roundtrip (rs : List Json) (h : rs ≠ []) :
    decodeJSONL (encodeJSONL rs) = .ok rs
    ∧ ∀ t, t = encodeJSONL rs → ∃ rs2, decodeJSONL t = .ok rs2 ∧ encodeJSONL rs2 = t := by
  refine ⟨decode_encode rs h, ?_⟩
  intro t ht
  subst ht
  exact ⟨rs, decode_encode rs h, rfl⟩

theorem codec_roundtrip_witness :
    decodeJSONL (encodeJSONL [Json.num 7]) = .ok [Json.num 7] :=
  (codec_roundtrip [Json.num 7] (List.cons_ne_nil _ _)).1

/-- C4 counterexample: the decode error does not name the index of the
offending line.  Two inputs whose only difference is the position of
the same malformed line (index 1 versus index 2) produce identical
errors, so the error cannot identify the line index; it carries only
the parse position inside the offending line. -/
theorem decode_error_line_index_cex :
    splitNl "\x7b\"success\":true\x7d\nnope" = ["\x7b\"success\":true\x7d", "nope"]
    ∧ splitNl "\x7b\"success\":true\x7d\n\x7b\"success\":true\x7d\nnope"
        = ["\x7b\"success\":true\x7d", "\x7b\"success\":true\x7d", "nope"]
    ∧ jsonParse "nope" = .error (.parseError 1)
    ∧ decodeJSONL "\x7b\"success\":true\x7d\nnope" = .error (.parseError 1)
    ∧ decodeJSONL "\x7b\"success\":true\x7d\n\x7b\"success\":true\x7d\nnope"
        = .error (.parseError 1) :=
  ⟨rfl, rfl, rfl, rfl, rfl⟩

/-- C4 amended: decoding splits the text on newlines and decodes each
line independently; it succeeds exactly when every line parses, giving
the linewise results in order, and fails exactly when some line is
malformed, propagating the parse error of the first malformed line with
no partial result — the error does not identify the line's index. -/
theorem decode_malformed_spec (s : String) :
    (∀ rs, decodeJSONL s = .ok rs ↔ (splitNl s).map jsonParse = rs.map Except.ok)
    ∧ (∀ e, decodeJSONL s = .error e ↔
        ∃ pre x post, splitNl s = pre ++ x :: post ∧ jsonParse x = .error e ∧
          ∀ y ∈ pre, ∃ v, jsonParse y = .ok v) :=
  ⟨fun rs => mapParse_ok_iff (splitNl s) rs, fun e => mapParse_error_iff (splitNl s) e⟩

/-- C7 counterexample: a decoded result that is JSON `null` does not
count as a success even though it lacks a `success: false` field — the
partition predicate throws a `TypeError` on the property access, and
the bulk operation fails with that error instead of returning results. -/
theorem success_discriminator_cex :
    decodeJSONL "null" = .ok [Json.null]
    ∧ successIsFalse Json.null
        = .error (.typeError "Cannot read properties of null (reading success)")
    ∧ (importOp (fun _ => "null") "books" (.docs [Json.obj .nil]) {}).result
        = .error (.typeError "Cannot read properties of null (reading success)") :=
  ⟨rfl, rfl, rfl⟩

/-- C7 amended: on result sequences containing no JSON `null`, a result
is classified as failed exactly when its `success` field is present and
equal to the boolean `false` (the sole discriminator, with a later
duplicate field winning as in the host language); every other non-null
result counts as a success; a `null` result instead makes the partition
throw a `TypeError`. -/
theorem success_discriminator (results : List Json) (h : Json.null ∉ results) :
    filterFailedE results = .ok (results.filter hasSuccessFalse)
    ∧ ∀ r : Json, hasSuccessFalse r = true ↔ successField r = some (Json.bool false) :=
  ⟨filterFailedE_no_null results h, hasSuccessFalse_iff⟩

theorem success_discriminator_witness :
    filterFailedE [Json.obj (.cons "success" (.bool true) .nil),
        Json.obj (.cons "success" (.bool false) .nil)]
      = .ok [Json.obj (.cons "success" (.bool false) .nil)] := by
  have h := success_discriminator [Json.obj (.cons "success" (.bool true) .nil),
      Json.obj (.cons "success" (.bool false) .nil)] (by simp)
  rw [h.1]
  exact rfl
